import Mathlib

/-!
Shallow embedding of the branching conversation store of `libmoon`
(`src/chat.rs`, `src/message.rs`) and proofs about its operations.

Modelling conventions:
* Rust `Vec<T>` is `List T`; in-place mutation is explicit state passing.
* Indexing that panics in Rust (`v[i]`, `Vec::remove` out of bounds) is
  modelled with `Option`: `none` is a panic, `some` a normal return.
* `Message` keeps the fields the store logic reads (`owner`, `text`);
  the display name, timestamp and numeric id are dropped: no operation
  of the conversation tree branches on them.
* The `Chat` wrapper keeps only the tree root; personas, settings and
  the channel sender are I/O configuration that the tree logic never
  reads.  The boolean returned by the `Chat` operations records whether
  `generate()` was called by that operation.
* The asynchronous generation task body (the `tokio::spawn` closure in
  `Chat::generate`) is modelled as a function from the provider outcome
  (request error, or the list of streamed fragments) to the final tree
  and the list of emitted `ChatUpdate` events, in emission order.
-/

/-- Owner of a message: the user, or a character identified by index
(`OwnerType` in `message.rs`). -/
inductive OwnerType where
  | User : OwnerType
  | Char : Nat → OwnerType
deriving DecidableEq

/-- A conversation message (`Message` in `message.rs`), restricted to the
fields the tree logic reads. -/
structure Message where
  owner : OwnerType
  text : String
deriving DecidableEq

instance : Inhabited Message := ⟨⟨OwnerType.User, ""⟩⟩

/-- Rust `str::trim`: drop whitespace characters from both ends
(modelled over the character list; `Char.isWhitespace` stands for
Rust's whitespace predicate, which agrees with it on ASCII). -/
def rust_trim (s : String) : String :=
  ⟨((s.data.dropWhile Char.isWhitespace).reverse.dropWhile Char.isWhitespace).reverse⟩

/-- Rust `str::ends_with('\n')`: the last character is a newline. -/
def ends_with_nl (s : String) : Bool :=
  s.data.getLast? == some '\n'

/-- Text normalization shared by `Message::from_user` and
`Message::from_char`: push a trailing newline when missing. -/
def ensure_newline (text : String) : String :=
  if ends_with_nl text then text else text ++ "\n"

/-- `Message::from_user` (message.rs): a User-owned message whose text is
normalized to end with a newline. -/
def Message.from_user (text : String) : Message :=
  { owner := OwnerType.User, text := ensure_newline text }

/-- `Message::from_char` (message.rs): a Character-owned message whose text
is normalized to end with a newline. -/
def Message.from_char (char_id : Nat) (text : String) : Message :=
  { owner := OwnerType.Char char_id, text := ensure_newline text }

/-- `Message::empty_from_char` (message.rs): `from_char` on the empty
string. -/
def Message.empty_from_char (char_id : Nat) : Message :=
  Message.from_char char_id ""

/-- `Message::create_brother` (message.rs): same owner, empty text. -/
def Message.create_brother (m : Message) : Message :=
  { owner := m.owner, text := "" }

/-- Role tag of a provider request message (`llm::chat::ChatMessage`
at the interface boundary). -/
inductive ChatRole where
  | user : ChatRole
  | assistant : ChatRole
deriving DecidableEq

/-- A role-tagged provider request message. -/
structure ChatMessage where
  role : ChatRole
  content : String
deriving DecidableEq

/-- `Message::to_chat_message` (message.rs): User maps to the user role,
Char maps to the assistant role; the content is the text. -/
def Message.to_chat_message (m : Message) : ChatMessage :=
  match m.owner with
  | OwnerType.User => { role := ChatRole.user, content := m.text }
  | OwnerType.Char _ => { role := ChatRole.assistant, content := m.text }

/-- Events published on the notification channel (`ChatUpdate` in
`chat.rs`). -/
inductive ChatUpdate where
  | MessageCreated : ChatUpdate
  | StreamUpdate : ChatUpdate
  | StreamFinished : ChatUpdate
  | Error : String → ChatUpdate
deriving DecidableEq

/-- Outcome of `llm.chat_stream(&history)`: a request-level failure, or
the stream, abstracted as the list of `Ok` fragments it yields. -/
inductive StreamResult where
  | err : String → StreamResult
  | ok : List String → StreamResult

/-- A conversation tree node (`Node` in `chat.rs`): the sibling messages
of one turn, one child subtree per sibling, and the selected branch. -/
inductive Node where
  | mk (messages : List Message) (childs : List Node) (selected : Nat)

/-- `Node::new`: empty node. -/
def Node.new : Node := Node.mk [] [] 0

/-- The `messages` field. -/
def Node.messages : Node → List Message
  | Node.mk m _ _ => m

/-- The `childs` field. -/
def Node.childs : Node → List Node
  | Node.mk _ c _ => c

/-- The `selected` field. -/
def Node.selected : Node → Nat
  | Node.mk _ _ s => s

mutual

/-- `Node::push` (chat.rs): if there are no children, append the message
and a fresh child here; otherwise recurse into `childs[selected]`
(`none` models the panic when `selected` is out of bounds). -/
def Node.push (msg : Message) : Node → Option Node
  | Node.mk msgs childs sel =>
    if childs.isEmpty then
      some (Node.mk (msgs ++ [msg]) (childs ++ [Node.new]) sel)
    else
      match Node.pushAt msg sel childs with
      | none => none
      | some childs' => some (Node.mk msgs childs' sel)

/-- In-place update `childs[i].push(msg)` on a child list. -/
def Node.pushAt (msg : Message) : Nat → List Node → Option (List Node)
  | _, [] => none
  | 0, c :: cs =>
    match Node.push msg c with
    | none => none
    | some c' => some (c' :: cs)
  | i + 1, c :: cs =>
    match Node.pushAt msg i cs with
    | none => none
    | some cs' => some (c :: cs')

end

mutual

/-- `Node::append_to_last_message` (chat.rs): no-op when `messages` is
empty; otherwise, if `childs[selected]` has no children of its own, the
streaming tail is `messages[selected]`, so append the text there, else
recurse into `childs[selected]`. -/
def Node.append_to_last_message (text : String) : Node → Option Node
  | Node.mk msgs childs sel =>
    if msgs.isEmpty then
      some (Node.mk msgs childs sel)
    else
      match childs[sel]? with
      | none => none
      | some c =>
        if c.childs.isEmpty then
          match msgs[sel]? with
          | none => none
          | some m =>
            some (Node.mk (msgs.set sel { m with text := m.text ++ text }) childs sel)
        else
          match Node.appendAt text sel childs with
          | none => none
          | some childs' => some (Node.mk msgs childs' sel)

/-- In-place update `childs[i].append_to_last_message(text)`. -/
def Node.appendAt (text : String) : Nat → List Node → Option (List Node)
  | _, [] => none
  | 0, c :: cs =>
    match Node.append_to_last_message text c with
    | none => none
    | some c' => some (c' :: cs)
  | i + 1, c :: cs =>
    match Node.appendAt text i cs with
    | none => none
    | some cs' => some (c :: cs')

end

mutual

/-- `Node::get_history` (chat.rs): while `messages` is non-empty, emit
`messages[selected]` and recurse into `childs[selected]`. -/
def Node.get_history : Node → Option (List Message)
  | Node.mk msgs childs sel =>
    if msgs.isEmpty then
      some []
    else
      match msgs[sel]? with
      | none => none
      | some m =>
        match Node.histAt sel childs with
        | none => none
        | some rest => some (m :: rest)

/-- Recursion `childs[i].get_history(..)` on a child list. -/
def Node.histAt : Nat → List Node → Option (List Message)
  | _, [] => none
  | 0, c :: _ => Node.get_history c
  | i + 1, _ :: cs => Node.histAt i cs

end

mutual

/-- `Node::get_history_structure` (chat.rs): while `messages` is
non-empty, emit `(selected + 1, messages.len())` and recurse into
`childs[selected]`. -/
def Node.get_history_structure : Node → Option (List (Nat × Nat))
  | Node.mk msgs childs sel =>
    if msgs.isEmpty then
      some []
    else
      match Node.structAt sel childs with
      | none => none
      | some rest => some ((sel + 1, msgs.length) :: rest)

/-- Recursion `childs[i].get_history_structure(..)` on a child list. -/
def Node.structAt : Nat → List Node → Option (List (Nat × Nat))
  | _, [] => none
  | 0, c :: _ => Node.get_history_structure c
  | i + 1, _ :: cs => Node.structAt i cs

end

/-- `Node::previous` (chat.rs): at the target depth decrement `selected`
clamped at 0, otherwise recurse into `childs[selected]`. -/
def Node.previous : Node → Nat → Option Node
  | Node.mk msgs childs sel, 0 =>
    some (Node.mk msgs childs (if 0 < sel then sel - 1 else sel))
  | Node.mk msgs childs sel, depth + 1 =>
    match childs[sel]? with
    | none => none
    | some c =>
      match c.previous depth with
      | none => none
      | some c' => some (Node.mk msgs (childs.set sel c') sel)

/-- `Node::next` (chat.rs): at the target depth, if `selected + 1 >=
messages.len()` push a brother of `messages[selected]` and a fresh child
and return `true`, else just advance `selected` and return `false`. -/
def Node.next : Node → Nat → Option (Node × Bool)
  | Node.mk msgs childs sel, 0 =>
    if msgs.length ≤ sel + 1 then
      match msgs[sel]? with
      | none => none
      | some m =>
        some (Node.mk (msgs ++ [m.create_brother]) (childs ++ [Node.new]) (sel + 1), true)
    else
      some (Node.mk msgs childs (sel + 1), false)
  | Node.mk msgs childs sel, depth + 1 =>
    match childs[sel]? with
    | none => none
    | some c =>
      match c.next depth with
      | none => none
      | some (c', b) => some (Node.mk msgs (childs.set sel c') sel, b)

/-- `Node::add_edit` (chat.rs): at the target depth, push a brother of
`messages[selected]` carrying the new text, push the new child (seeded
with an empty character response when the selected message was owned by
the User), and select the pushed alternative. -/
def Node.add_edit : Node → Nat → String → Option (Node × Bool)
  | Node.mk msgs childs sel, 0, text =>
    match msgs[sel]? with
    | none => none
    | some cur =>
      let edit : Message := { cur.create_brother with text := text }
      let msgs' := msgs ++ [edit]
      let new_node : Node :=
        match cur.owner with
        | OwnerType.User => Node.mk [Message.empty_from_char 0] [Node.new] 0
        | OwnerType.Char _ => Node.new
      let added_response : Bool :=
        match cur.owner with
        | OwnerType.User => true
        | OwnerType.Char _ => false
      some (Node.mk msgs' (childs ++ [new_node]) (msgs'.length - 1), added_response)
  | Node.mk msgs childs sel, depth + 1, text =>
    match childs[sel]? with
    | none => none
    | some c =>
      match c.add_edit depth text with
      | none => none
      | some (c', b) => some (Node.mk msgs (childs.set sel c') sel, b)

/-- `Node::delete` (chat.rs): at the target depth remove the alternative
and the child at `selected` (`Vec::remove` panics out of bounds), then
decrement `selected` unless it is 0. -/
def Node.delete : Node → Nat → Option Node
  | Node.mk msgs childs sel, 0 =>
    if sel < msgs.length then
      if sel < childs.length then
        some (Node.mk (msgs.eraseIdx sel) (childs.eraseIdx sel)
          (if 0 < sel then sel - 1 else sel))
      else none
    else none
  | Node.mk msgs childs sel, depth + 1 =>
    match childs[sel]? with
    | none => none
    | some c =>
      match c.delete depth with
      | none => none
      | some c' => some (Node.mk msgs (childs.set sel c') sel)

/-- The node reached by walking `selected` children `depth` times from
this node: the node "at depth `depth` on the selected path". -/
def Node.atDepth : Node → Nat → Option Node
  | n, 0 => some n
  | n, depth + 1 =>
    match n.childs[n.selected]? with
    | none => none
    | some c => c.atDepth depth

mutual

/-- State invariant of a tree as maintained by the code: aligned lengths,
`selected` in range when `messages` is non-empty and 0 when it is empty,
recursively at every node. -/
def Node.wf : Node → Bool
  | Node.mk msgs childs sel =>
    childs.length == msgs.length
      && (if msgs.isEmpty then sel == 0 else decide (sel < msgs.length))
      && Node.wfList childs

/-- `Node.wf` on every node of a list. -/
def Node.wfList : List Node → Bool
  | [] => true
  | c :: cs => Node.wf c && Node.wfList cs

end

mutual

/-- The invariant exactly as the specification states it: at every
reachable node, `len(childs) = len(messages)` and, when `messages` is
non-empty, `selected < len(messages)`. -/
def Node.invTree : Node → Bool
  | Node.mk msgs childs sel =>
    childs.length == msgs.length
      && (msgs.isEmpty || decide (sel < msgs.length))
      && Node.invList childs

/-- `Node.invTree` on every node of a list. -/
def Node.invList : List Node → Bool
  | [] => true
  | c :: cs => Node.invTree c && Node.invList cs

end

/-- Concatenation of a list of fragments, in order. -/
def concatAll : List String → String
  | [] => ""
  | s :: ss => s ++ concatAll ss

/-- The fragment-consumption loop of the `Ok` branch of
`Chat::generate`: apply each fragment to the streaming tail in arrival
order, emitting a `StreamUpdate` after each, then a final
`StreamFinished`. -/
def Node.consume_ok : Node → List String → Option (Node × List ChatUpdate)
  | n, [] => some (n, [ChatUpdate.StreamFinished])
  | n, f :: fs =>
    match n.append_to_last_message f with
    | none => none
    | some n' =>
      match Node.consume_ok n' fs with
      | none => none
      | some (n'', evs) => some (n'', ChatUpdate.StreamUpdate :: evs)

/-- The body of the task spawned by `Chat::generate`: on a request-level
failure emit a single `Error` event and leave the tree untouched; on
success emit `MessageCreated` and run the consumption loop. -/
def Node.generate_run (n : Node) (r : StreamResult) : Option (Node × List ChatUpdate) :=
  match r with
  | StreamResult.err e => some (n, [ChatUpdate.Error e])
  | StreamResult.ok fs =>
    match Node.consume_ok n fs with
    | none => none
    | some (n', evs) => some (n', ChatUpdate.MessageCreated :: evs)

/-- The conversation store (`Chat` in `chat.rs`), restricted to the tree
root; personas, settings and the event sender are I/O configuration the
tree logic never reads. -/
structure Chat where
  root : Node

/-- `Chat::with_personas` (chat.rs): one root alternative per character
greeting, built with `Message::from_char(0, greeting)`, each with a
fresh empty child, `selected = 0`. -/
def Chat.with_personas (greetings : List String) : Chat :=
  { root := Node.mk (greetings.map (Message.from_char 0))
      (List.replicate greetings.length Node.new) 0 }

/-- `Chat::add_user_message` (chat.rs): trim the text; when non-empty
push a `from_user` message; always push an `empty_from_char 0`
placeholder and call `generate()` (the returned boolean). -/
def Chat.add_user_message (c : Chat) (text : String) : Option (Chat × Bool) :=
  let t := rust_trim text
  match (if t.data.isEmpty then some c.root else c.root.push (Message.from_user t)) with
  | none => none
  | some r1 =>
    match r1.push (Message.empty_from_char 0) with
    | none => none
    | some r2 => some ({ root := r2 }, true)

/-- `Chat::next` (chat.rs): forward to `Node::next`; `generate()` is
called exactly when it returns `true`. -/
def Chat.next (c : Chat) (depth : Nat) : Option (Chat × Bool) :=
  match c.root.next depth with
  | none => none
  | some (r, b) => some ({ root := r }, b)

/-- `Chat::previous` (chat.rs): forward to `Node::previous`. -/
def Chat.previous (c : Chat) (depth : Nat) : Option Chat :=
  match c.root.previous depth with
  | none => none
  | some r => some { root := r }

/-- `Chat::add_edit` (chat.rs): trim the text, forward to
`Node::add_edit`; `generate()` is called exactly when it returns
`true`. -/
def Chat.add_edit (c : Chat) (depth : Nat) (text : String) : Option (Chat × Bool) :=
  match c.root.add_edit depth (rust_trim text) with
  | none => none
  | some (r, b) => some ({ root := r }, b)

/-- `Chat::delete` (chat.rs): forward to `Node::delete`. -/
def Chat.delete (c : Chat) (depth : Nat) : Option Chat :=
  match c.root.delete depth with
  | none => none
  | some r => some { root := r }

/-- `Chat::get_history` (chat.rs). -/
def Chat.get_history (c : Chat) : Option (List Message) :=
  c.root.get_history

/-- `Chat::get_history_structure` (chat.rs). -/
def Chat.get_history_structure (c : Chat) : Option (List (Nat × Nat)) :=
  c.root.get_history_structure

/-- The request built by `Chat::generate` before spawning: map the
history through `to_chat_message`, then `history.pop()` drops the last
element (on an empty history `pop` is a no-op). -/
def Chat.build_request (c : Chat) : Option (List ChatMessage) :=
  match c.root.get_history with
  | none => none
  | some h => some ((h.map Message.to_chat_message).dropLast)

mutual

/-- Structural induction over conversation trees, with the induction
hypothesis available at every child. -/
theorem Node.strongInduction {P : Node → Prop}
    (step : ∀ msgs childs sel, (∀ c ∈ childs, P c) → P (Node.mk msgs childs sel)) :
    ∀ n, P n
  | Node.mk msgs childs sel =>
    step msgs childs sel (Node.strongInductionList step childs)

/-- List form of `Node.strongInduction`. -/
theorem Node.strongInductionList {P : Node → Prop}
    (step : ∀ msgs childs sel, (∀ c ∈ childs, P c) → P (Node.mk msgs childs sel)) :
    ∀ l : List Node, ∀ c ∈ l, P c
  | x :: xs, c, hc => by
    rcases List.mem_cons.mp hc with h | h
    · exact h ▸ Node.strongInduction step x
    · exact Node.strongInductionList step xs c h

end

/-- `Node.pushAt` is `push` applied in place at the given index. -/
theorem Node.pushAt_eq (msg : Message) :
    ∀ (i : Nat) (l : List Node),
      Node.pushAt msg i l =
        l[i]?.bind fun c => (Node.push msg c).map fun c' => l.set i c'
  | _, [] => by simp [Node.pushAt]
  | 0, c :: cs => by
    cases hp : Node.push msg c <;> simp [Node.pushAt, hp, List.set]
  | i + 1, c :: cs => by
    have ih := Node.pushAt_eq msg i cs
    cases hx : cs[i]? with
    | none => simp [Node.pushAt, ih, hx]
    | some x =>
      cases hp : Node.push msg x <;> simp [Node.pushAt, ih, hx, hp, List.set]

/-- `Node.appendAt` is `append_to_last_message` applied in place at the
given index. -/
theorem Node.appendAt_eq (text : String) :
    ∀ (i : Nat) (l : List Node),
      Node.appendAt text i l =
        l[i]?.bind fun c => (Node.append_to_last_message text c).map fun c' => l.set i c'
  | _, [] => by simp [Node.appendAt]
  | 0, c :: cs => by
    cases hp : Node.append_to_last_message text c <;> simp [Node.appendAt, hp, List.set]
  | i + 1, c :: cs => by
    have ih := Node.appendAt_eq text i cs
    cases hx : cs[i]? with
    | none => simp [Node.appendAt, ih, hx]
    | some x =>
      cases hp : Node.append_to_last_message text x <;> simp [Node.appendAt, ih, hx, hp, List.set]

/-- `Node.histAt` is `get_history` of the child at the given index. -/
theorem Node.histAt_eq :
    ∀ (i : Nat) (l : List Node), Node.histAt i l = l[i]?.bind Node.get_history
  | _, [] => by simp [Node.histAt]
  | 0, c :: cs => by simp [Node.histAt]
  | i + 1, c :: cs => by simp [Node.histAt, Node.histAt_eq i cs]

/-- `Node.structAt` is `get_history_structure` of the child at the given
index. -/
theorem Node.structAt_eq :
    ∀ (i : Nat) (l : List Node), Node.structAt i l = l[i]?.bind Node.get_history_structure
  | _, [] => by simp [Node.structAt]
  | 0, c :: cs => by simp [Node.structAt]
  | i + 1, c :: cs => by simp [Node.structAt, Node.structAt_eq i cs]

/-- `Node.wfList` says every node of the list is `wf`. -/
theorem Node.wfList_iff : ∀ l : List Node,
    (Node.wfList l = true ↔ ∀ c ∈ l, Node.wf c = true)
  | [] => by simp [Node.wfList]
  | c :: cs => by
    simp [Node.wfList, Bool.and_eq_true, Node.wfList_iff cs]

/-- Unfolding of `Node.wf` at a constructor. -/
theorem Node.wf_mk (msgs : List Message) (childs : List Node) (sel : Nat) :
    Node.wf (Node.mk msgs childs sel) = true ↔
      childs.length = msgs.length ∧
      (if msgs.isEmpty then sel = 0 else sel < msgs.length) ∧
      ∀ c ∈ childs, Node.wf c = true := by
  cases hm : msgs.isEmpty <;>
    simp [Node.wf, Bool.and_eq_true, Node.wfList_iff, hm, and_assoc]

/-- `Node.invList` says every node of the list satisfies `invTree`. -/
theorem Node.invList_iff : ∀ l : List Node,
    (Node.invList l = true ↔ ∀ c ∈ l, Node.invTree c = true)
  | [] => by simp [Node.invList]
  | c :: cs => by
    simp [Node.invList, Bool.and_eq_true, Node.invList_iff cs]

/-- Unfolding of `Node.invTree` at a constructor. -/
theorem Node.invTree_mk (msgs : List Message) (childs : List Node) (sel : Nat) :
    Node.invTree (Node.mk msgs childs sel) = true ↔
      childs.length = msgs.length ∧
      (msgs.isEmpty = true ∨ sel < msgs.length) ∧
      ∀ c ∈ childs, Node.invTree c = true := by
  simp [Node.invTree, Bool.and_eq_true, Node.invList_iff, and_assoc]

/-- The code invariant implies the specification invariant. -/
theorem Node.wf_invTree : ∀ n : Node, Node.wf n = true → Node.invTree n = true := by
  intro n
  induction n using Node.strongInduction with
  | step msgs childs sel ih =>
    intro hwf
    rcases (Node.wf_mk msgs childs sel).mp hwf with ⟨hlen, hsel, hall⟩
    refine (Node.invTree_mk msgs childs sel).mpr ⟨hlen, ?_, fun c hc => ih c hc (hall c hc)⟩
    cases hm : msgs.isEmpty with
    | true => exact Or.inl rfl
    | false => exact Or.inr (by simpa [hm] using hsel)

/-- A fresh node is well-formed. -/
theorem Node.new_wf : Node.wf Node.new = true := rfl

/-- Replacing a child with a well-formed node keeps a node
well-formed. -/
theorem Node.wf_set (msgs : List Message) (childs : List Node) (sel i : Nat) (c' : Node)
    (hwf : Node.wf (Node.mk msgs childs sel) = true) (hc' : Node.wf c' = true) :
    Node.wf (Node.mk msgs (childs.set i c') sel) = true := by
  rcases (Node.wf_mk msgs childs sel).mp hwf with ⟨hlen, hsel, hall⟩
  refine (Node.wf_mk msgs (childs.set i c') sel).mpr ⟨by simpa using hlen, hsel, ?_⟩
  intro c hc
  rcases List.mem_or_eq_of_mem_set hc with h | h
  · exact hall c h
  · exact h ▸ hc'

/-- Unfolding of `Node.previous` below the target depth. -/
theorem Node.previous_succ (msgs : List Message) (childs : List Node) (sel depth : Nat) :
    Node.previous (Node.mk msgs childs sel) (depth + 1)
      = childs[sel]?.bind fun c =>
          (c.previous depth).map fun c' => Node.mk msgs (childs.set sel c') sel := by
  cases hx : childs[sel]? with
  | none => simp [Node.previous, hx]
  | some c => cases hq : Node.previous c depth <;> simp [Node.previous, hx, hq]

/-- Unfolding of `Node.next` below the target depth. -/
theorem Node.next_succ (msgs : List Message) (childs : List Node) (sel depth : Nat) :
    Node.next (Node.mk msgs childs sel) (depth + 1)
      = childs[sel]?.bind fun c =>
          (c.next depth).map fun p => (Node.mk msgs (childs.set sel p.1) sel, p.2) := by
  cases hx : childs[sel]? with
  | none => simp [Node.next, hx]
  | some c =>
    cases hq : Node.next c depth with
    | none => simp [Node.next, hx, hq]
    | some p => cases p with
      | mk c' b => simp [Node.next, hx, hq]

/-- Unfolding of `Node.add_edit` below the target depth. -/
theorem Node.add_edit_succ (msgs : List Message) (childs : List Node) (sel depth : Nat)
    (text : String) :
    Node.add_edit (Node.mk msgs childs sel) (depth + 1) text
      = childs[sel]?.bind fun c =>
          (c.add_edit depth text).map fun p => (Node.mk msgs (childs.set sel p.1) sel, p.2) := by
  cases hx : childs[sel]? with
  | none => simp [Node.add_edit, hx]
  | some c =>
    cases hq : Node.add_edit c depth text with
    | none => simp [Node.add_edit, hx, hq]
    | some p => cases p with
      | mk c' b => simp [Node.add_edit, hx, hq]

/-- Unfolding of `Node.delete` below the target depth. -/
theorem Node.delete_succ (msgs : List Message) (childs : List Node) (sel depth : Nat) :
    Node.delete (Node.mk msgs childs sel) (depth + 1)
      = childs[sel]?.bind fun c =>
          (c.delete depth).map fun c' => Node.mk msgs (childs.set sel c') sel := by
  cases hx : childs[sel]? with
  | none => simp [Node.delete, hx]
  | some c => cases hq : Node.delete c depth <;> simp [Node.delete, hx, hq]

/-- Unfolding of `Node.push` on a node that already has children. -/
theorem Node.push_nonempty (msg : Message) (msgs : List Message) (childs : List Node)
    (sel : Nat) (h : childs.isEmpty = false) :
    Node.push msg (Node.mk msgs childs sel)
      = childs[sel]?.bind fun c =>
          (Node.push msg c).map fun c' => Node.mk msgs (childs.set sel c') sel := by
  rw [Node.push, h]
  simp only [Bool.false_eq_true, if_false, Node.pushAt_eq]
  cases hx : childs[sel]? with
  | none => simp
  | some c => cases hp : Node.push msg c <;> simp [hp]

/-- `Node.previous` preserves well-formedness. -/
theorem Node.previous_wf : ∀ (depth : Nat) (n n' : Node),
    Node.wf n = true → Node.previous n depth = some n' → Node.wf n' = true
  | 0, Node.mk msgs childs sel, n', hwf, hp => by
    simp only [Node.previous, Option.some_inj] at hp
    subst hp
    rcases (Node.wf_mk msgs childs sel).mp hwf with ⟨hlen, hsel, hall⟩
    refine (Node.wf_mk ..).mpr ⟨hlen, ?_, hall⟩
    by_cases hm : msgs.isEmpty = true <;> simp [hm] at hsel ⊢ <;> split <;> omega
  | depth + 1, Node.mk msgs childs sel, n', hwf, hp => by
    rw [Node.previous_succ] at hp
    simp only [Option.bind_eq_some, Option.map_eq_some'] at hp
    obtain ⟨c, hx, c', hq, rfl⟩ := hp
    have hcwf : Node.wf c = true :=
      ((Node.wf_mk msgs childs sel).mp hwf).2.2 c (List.getElem?_mem hx)
    exact Node.wf_set msgs childs sel sel c' hwf (Node.previous_wf depth c c' hcwf hq)

/-- `Node.next` preserves well-formedness. -/
theorem Node.next_wf : ∀ (depth : Nat) (n n' : Node) (b : Bool),
    Node.wf n = true → Node.next n depth = some (n', b) → Node.wf n' = true
  | 0, Node.mk msgs childs sel, n', b, hwf, hp => by
    rcases (Node.wf_mk msgs childs sel).mp hwf with ⟨hlen, hsel, hall⟩
    rw [Node.next] at hp
    split at hp
    · cases hx : msgs[sel]? with
      | none => rw [hx] at hp; cases hp
      | some m =>
        rw [hx] at hp
        simp only [Option.some_inj, Prod.mk.injEq] at hp
        obtain ⟨rfl, rfl⟩ := hp
        have hsl : sel < msgs.length := (List.getElem?_eq_some.mp hx).1
        refine (Node.wf_mk ..).mpr ⟨by simp [hlen], ?_, ?_⟩
        · have hne : (msgs ++ [m.create_brother]).isEmpty = false := by
            cases msgs <;> simp
          simp only [hne, Bool.false_eq_true, if_false, List.length_append,
            List.length_cons, List.length_nil]
          omega
        · intro c hc
          rcases List.mem_append.mp hc with h | h
          · exact hall c h
          · rcases List.mem_singleton.mp h with rfl
            exact Node.new_wf
    · simp only [Option.some_inj, Prod.mk.injEq] at hp
      obtain ⟨rfl, rfl⟩ := hp
      refine (Node.wf_mk ..).mpr ⟨hlen, ?_, hall⟩
      have : sel + 1 < msgs.length := by omega
      have hne : msgs.isEmpty = false := by
        cases msgs <;> simp_all
      simp [hne]
      omega
  | depth + 1, Node.mk msgs childs sel, n', b, hwf, hp => by
    rw [Node.next_succ] at hp
    simp only [Option.bind_eq_some, Option.map_eq_some'] at hp
    obtain ⟨c, hx, ⟨c', b'⟩, hq, hpair⟩ := hp
    obtain ⟨rfl, rfl⟩ := Prod.mk.injEq .. ▸ hpair
    have hcwf : Node.wf c = true :=
      ((Node.wf_mk msgs childs sel).mp hwf).2.2 c (List.getElem?_mem hx)
    exact Node.wf_set msgs childs sel sel c' hwf (Node.next_wf depth c c' b' hcwf hq)

/-- `Node.add_edit` preserves well-formedness. -/
theorem Node.add_edit_wf : ∀ (depth : Nat) (n : Node) (text : String) (n' : Node) (b : Bool),
    Node.wf n = true → Node.add_edit n depth text = some (n', b) → Node.wf n' = true
  | 0, Node.mk msgs childs sel, text, n', b, hwf, hp => by
    rcases (Node.wf_mk msgs childs sel).mp hwf with ⟨hlen, hsel, hall⟩
    rw [Node.add_edit] at hp
    cases hx : msgs[sel]? with
    | none => rw [hx] at hp; cases hp
    | some cur =>
      rw [hx] at hp
      simp only [Option.some_inj, Prod.mk.injEq] at hp
      obtain ⟨rfl, rfl⟩ := hp
      refine (Node.wf_mk ..).mpr ⟨?_, ?_, ?_⟩
      · simp [hlen]
      · have hne : (msgs ++ [{ cur.create_brother with text := text }]).isEmpty = false := by
          cases msgs <;> simp
        simp only [hne, Bool.false_eq_true, if_false, List.length_append,
          List.length_cons, List.length_nil]
        omega
      · intro c hc
        rcases List.mem_append.mp hc with h | h
        · exact hall c h
        · rcases List.mem_singleton.mp h with rfl
          cases hcur : cur.owner <;> rfl
  | depth + 1, Node.mk msgs childs sel, text, n', b, hwf, hp => by
    rw [Node.add_edit_succ] at hp
    simp only [Option.bind_eq_some, Option.map_eq_some'] at hp
    obtain ⟨c, hx, ⟨c', b'⟩, hq, hpair⟩ := hp
    obtain ⟨rfl, rfl⟩ := Prod.mk.injEq .. ▸ hpair
    have hcwf : Node.wf c = true :=
      ((Node.wf_mk msgs childs sel).mp hwf).2.2 c (List.getElem?_mem hx)
    exact Node.wf_set msgs childs sel sel c' hwf (Node.add_edit_wf depth c text c' b' hcwf hq)

/-- `Node.delete` preserves well-formedness. -/
theorem Node.delete_wf : ∀ (depth : Nat) (n n' : Node),
    Node.wf n = true → Node.delete n depth = some n' → Node.wf n' = true
  | 0, Node.mk msgs childs sel, n', hwf, hp => by
    rcases (Node.wf_mk msgs childs sel).mp hwf with ⟨hlen, hsel, hall⟩
    rw [Node.delete] at hp
    split at hp
    · split at hp
      · rename_i h1 h2
        simp only [Option.some_inj] at hp
        subst hp
        refine (Node.wf_mk ..).mpr ⟨?_, ?_, ?_⟩
        · rw [List.length_eraseIdx_of_lt h2, List.length_eraseIdx_of_lt h1, hlen]
        · by_cases he : (msgs.eraseIdx sel).isEmpty = true
          · have h0 : (msgs.eraseIdx sel).length = 0 :=
              List.isEmpty_iff_length_eq_zero.mp he
            rw [List.length_eraseIdx_of_lt h1] at h0
            simp only [he, if_true]
            split <;> omega
          · simp only [Bool.not_eq_true] at he
            simp only [he, Bool.false_eq_true, if_false, List.length_eraseIdx_of_lt h1]
            have h0 : (msgs.eraseIdx sel).length ≠ 0 := fun hz =>
              absurd (List.isEmpty_iff_length_eq_zero.mpr hz) (by simp [he])
            rw [List.length_eraseIdx_of_lt h1] at h0
            split <;> omega
        · exact fun c hc => hall c (List.mem_of_mem_eraseIdx hc)
      · cases hp
    · cases hp
  | depth + 1, Node.mk msgs childs sel, n', hwf, hp => by
    rw [Node.delete_succ] at hp
    simp only [Option.bind_eq_some, Option.map_eq_some'] at hp
    obtain ⟨c, hx, c', hq, rfl⟩ := hp
    have hcwf : Node.wf c = true :=
      ((Node.wf_mk msgs childs sel).mp hwf).2.2 c (List.getElem?_mem hx)
    exact Node.wf_set msgs childs sel sel c' hwf (Node.delete_wf depth c c' hcwf hq)

/-- `Node.push` preserves well-formedness. -/
theorem Node.push_wf (n : Node) :
    ∀ (msg : Message) (n' : Node),
      Node.wf n = true → Node.push msg n = some n' → Node.wf n' = true := by
  induction n using Node.strongInduction with
  | step msgs childs sel ih =>
    intro msg n' hwf hp
    rcases (Node.wf_mk msgs childs sel).mp hwf with ⟨hlen, hsel, hall⟩
    by_cases hemp : childs.isEmpty = true
    · have hmn : msgs = [] := by
        have : childs = [] := List.isEmpty_iff.mp hemp
        subst this
        cases msgs with
        | nil => rfl
        | cons a as => simp at hlen
      subst hmn
      have hs0 : sel = 0 := by simpa using hsel
      subst hs0
      rw [Node.push, hemp] at hp
      simp only [if_true, Option.some_inj] at hp
      subst hp
      refine (Node.wf_mk ..).mpr ⟨by simp [hlen], by simp, ?_⟩
      intro c hc
      rcases List.mem_append.mp hc with h | h
      · exact hall c h
      · rcases List.mem_singleton.mp h with rfl
        exact Node.new_wf
    · rw [Node.push_nonempty msg msgs childs sel (by simpa using hemp)] at hp
      simp only [Option.bind_eq_some, Option.map_eq_some'] at hp
      obtain ⟨c, hx, c', hq, rfl⟩ := hp
      have hmem := List.getElem?_mem hx
      exact Node.wf_set msgs childs sel sel c' hwf (ih c hmem msg c' (hall c hmem) hq)

/-- `Node.append_to_last_message` preserves well-formedness. -/
theorem Node.append_wf (n : Node) :
    ∀ (text : String) (n' : Node),
      Node.wf n = true → Node.append_to_last_message text n = some n' → Node.wf n' = true := by
  induction n using Node.strongInduction with
  | step msgs childs sel ih =>
    intro text n' hwf hp
    rcases (Node.wf_mk msgs childs sel).mp hwf with ⟨hlen, hsel, hall⟩
    rw [Node.append_to_last_message] at hp
    by_cases hemp : msgs.isEmpty = true
    · rw [hemp] at hp
      simp only [if_true, Option.some_inj] at hp
      subst hp
      exact hwf
    · rw [Bool.not_eq_true] at hemp
      rw [hemp] at hp
      simp only [Bool.false_eq_true, if_false] at hp
      cases hx : childs[sel]? with
      | none => rw [hx] at hp; cases hp
      | some c =>
        rw [hx] at hp
        dsimp only at hp
        by_cases hce : c.childs.isEmpty = true
        · rw [hce] at hp
          simp only [if_true] at hp
          cases hm : msgs[sel]? with
          | none => rw [hm] at hp; cases hp
          | some m =>
            rw [hm] at hp
            simp only [Option.some_inj] at hp
            subst hp
            refine (Node.wf_mk ..).mpr ⟨by simp [hlen], ?_, hall⟩
            have : (msgs.set sel { m with text := m.text ++ text }).isEmpty = msgs.isEmpty := by
              cases msgs with
              | nil => simp
              | cons a as => cases sel <;> simp
            rw [this, hemp]
            simp only [Bool.false_eq_true, if_false, List.length_set]
            simpa [hemp] using hsel
        · rw [Bool.not_eq_true] at hce
          rw [hce] at hp
          simp only [Bool.false_eq_true, if_false] at hp
          cases haa : Node.appendAt text sel childs with
          | none => rw [haa] at hp; cases hp
          | some childs' =>
            rw [haa] at hp
            simp only [Option.some_inj] at hp
            subst hp
            rw [Node.appendAt_eq] at haa
            simp only [Option.bind_eq_some, Option.map_eq_some'] at haa
            obtain ⟨c2, hx2, c', hq, rfl⟩ := haa
            have hceq : c2 = c := by rw [hx2] at hx; exact Option.some_inj.mp hx
            subst hceq
            have hmem := List.getElem?_mem hx2
            exact Node.wf_set msgs childs sel sel c' hwf (ih c2 hmem text c' (hall c2 hmem) hq)

/-- Unfolding of `Node.atDepth` one level down. -/
theorem Node.atDepth_succ (msgs : List Message) (childs : List Node) (sel d : Nat) :
    Node.atDepth (Node.mk msgs childs sel) (d + 1)
      = childs[sel]?.bind fun c => c.atDepth d := by
  cases hx : childs[sel]? <;> simp [Node.atDepth, Node.childs, Node.selected, hx]

/-- Setting the element that was read back gives the new element. -/
theorem List.getElem?_set_of_get {α : Type} (l : List α) (i : Nat) (a b : α)
    (h : l[i]? = some a) : (l.set i b)[i]? = some b := by
  rw [List.getElem?_set_self', h]
  rfl

/-- A depth-indexed operation returning an extra value, defined by the
walk-to-depth recursion scheme, acts at the node at the target depth:
if the local step succeeds there, the whole operation succeeds, returns
the same extra value, and the tree at the target depth becomes the
local result. -/
theorem Node.op_atDepth {α : Type} (f : Node → Option (Node × α))
    (op : Node → Nat → Option (Node × α))
    (hop0 : ∀ n, op n 0 = f n)
    (hopS : ∀ msgs childs sel d, op (Node.mk msgs childs sel) (d + 1)
      = childs[sel]?.bind fun c =>
          (op c d).map fun p => (Node.mk msgs (childs.set sel p.1) sel, p.2)) :
    ∀ (d : Nat) (n t : Node), Node.atDepth n d = some t →
      ∀ (t' : Node) (a : α), f t = some (t', a) →
        ∃ n', op n d = some (n', a) ∧ Node.atDepth n' d = some t'
  | 0, n, t, ht, t', a, hf => by
    simp only [Node.atDepth, Option.some_inj] at ht
    subst ht
    exact ⟨t', by rw [hop0]; exact hf, rfl⟩
  | d + 1, Node.mk msgs childs sel, t, ht, t', a, hf => by
    rw [Node.atDepth_succ] at ht
    rcases Option.bind_eq_some.mp ht with ⟨c, hx, hc⟩
    obtain ⟨c', hop, hat⟩ := Node.op_atDepth f op hop0 hopS d c t hc t' a hf
    refine ⟨Node.mk msgs (childs.set sel c') sel, ?_, ?_⟩
    · rw [hopS, hx]
      simp [hop]
    · rw [Node.atDepth_succ, List.getElem?_set_of_get childs sel c c' hx]
      simpa using hat

/-- Variant of `Node.op_atDepth` for operations with no extra value. -/
theorem Node.op1_atDepth (f : Node → Option Node) (op : Node → Nat → Option Node)
    (hop0 : ∀ n, op n 0 = f n)
    (hopS : ∀ msgs childs sel d, op (Node.mk msgs childs sel) (d + 1)
      = childs[sel]?.bind fun c =>
          (op c d).map fun c' => Node.mk msgs (childs.set sel c') sel) :
    ∀ (d : Nat) (n t : Node), Node.atDepth n d = some t →
      ∀ t' : Node, f t = some t' →
        ∃ n', op n d = some n' ∧ Node.atDepth n' d = some t'
  | 0, n, t, ht, t', hf => by
    simp only [Node.atDepth, Option.some_inj] at ht
    subst ht
    exact ⟨t', by rw [hop0]; exact hf, rfl⟩
  | d + 1, Node.mk msgs childs sel, t, ht, t', hf => by
    rw [Node.atDepth_succ] at ht
    rcases Option.bind_eq_some.mp ht with ⟨c, hx, hc⟩
    obtain ⟨c', hop, hat⟩ := Node.op1_atDepth f op hop0 hopS d c t hc t' hf
    refine ⟨Node.mk msgs (childs.set sel c') sel, ?_, ?_⟩
    · rw [hopS, hx]
      simp [hop]
    · rw [Node.atDepth_succ, List.getElem?_set_of_get childs sel c c' hx]
      simpa using hat

/-- The local step of `Node.next` at its target node. -/
theorem Node.next_zero : ∀ msgs childs sel,
    Node.next (Node.mk msgs childs sel) 0
      = if msgs.length ≤ sel + 1 then
          match msgs[sel]? with
          | none => none
          | some m =>
            some (Node.mk (msgs ++ [m.create_brother]) (childs ++ [Node.new]) (sel + 1), true)
        else
          some (Node.mk msgs childs (sel + 1), false) :=
  fun _ _ _ => rfl

/-- The local step of `Node.previous` at its target node. -/
theorem Node.previous_zero : ∀ msgs childs sel,
    Node.previous (Node.mk msgs childs sel) 0
      = some (Node.mk msgs childs (if 0 < sel then sel - 1 else sel)) :=
  fun _ _ _ => rfl

/-- The local step of `Node.delete` at its target node. -/
theorem Node.delete_zero : ∀ msgs childs sel,
    Node.delete (Node.mk msgs childs sel) 0
      = if sel < msgs.length then
          if sel < childs.length then
            some (Node.mk (msgs.eraseIdx sel) (childs.eraseIdx sel)
              (if 0 < sel then sel - 1 else sel))
          else none
        else none :=
  fun _ _ _ => rfl

/-- The root produced by `Chat.with_personas` is well-formed. -/
theorem Chat.with_personas_wf (greetings : List String) :
    Node.wf (Chat.with_personas greetings).root = true := by
  refine (Node.wf_mk ..).mpr ⟨by simp, ?_, ?_⟩
  · cases greetings <;> simp
  · intro c hc
    have h := List.eq_of_mem_replicate hc
    exact h ▸ Node.new_wf

/-- C1: after every public operation on the conversation tree (push,
next, previous, add_edit, delete, append_to_last_message), every node
reachable from the root satisfies `len(childs) = len(messages)` and,
whenever `messages` is non-empty, `selected < len(messages)`
(`Node.invTree`).  Stated as: the initial root is well-formed, every
operation preserves well-formedness, and well-formedness implies the
claimed invariant at every reachable node. -/
theorem C1_tree_invariant (n : Node) (hwf : Node.wf n = true) :
    Node.invTree n = true ∧
    (∀ g : List String, Node.wf (Chat.with_personas g).root = true) ∧
    (∀ msg n', Node.push msg n = some n' →
      Node.invTree n' = true ∧ Node.wf n' = true) ∧
    (∀ d n', Node.previous n d = some n' →
      Node.invTree n' = true ∧ Node.wf n' = true) ∧
    (∀ d n' b, Node.next n d = some (n', b) →
      Node.invTree n' = true ∧ Node.wf n' = true) ∧
    (∀ d t n' b, Node.add_edit n d t = some (n', b) →
      Node.invTree n' = true ∧ Node.wf n' = true) ∧
    (∀ d n', Node.delete n d = some n' →
      Node.invTree n' = true ∧ Node.wf n' = true) ∧
    (∀ t n', Node.append_to_last_message t n = some n' →
      Node.invTree n' = true ∧ Node.wf n' = true) := by
  refine ⟨Node.wf_invTree n hwf, Chat.with_personas_wf, ?_, ?_, ?_, ?_, ?_, ?_⟩
  · intro msg n' hp
    have h := Node.push_wf n msg n' hwf hp
    exact ⟨Node.wf_invTree n' h, h⟩
  · intro d n' hp
    have h := Node.previous_wf d n n' hwf hp
    exact ⟨Node.wf_invTree n' h, h⟩
  · intro d n' b hp
    have h := Node.next_wf d n n' b hwf hp
    exact ⟨Node.wf_invTree n' h, h⟩
  · intro d t n' b hp
    have h := Node.add_edit_wf d n t n' b hwf hp
    exact ⟨Node.wf_invTree n' h, h⟩
  · intro d n' hp
    have h := Node.delete_wf d n n' hwf hp
    exact ⟨Node.wf_invTree n' h, h⟩
  · intro t n' hp
    have h := Node.append_wf n t n' hwf hp
    exact ⟨Node.wf_invTree n' h, h⟩

/-- Witness for C1: the invariant after a concrete `delete` on a
concrete two-alternative well-formed tree. -/
theorem C1_tree_invariant_witness :
    Node.invTree (Node.mk [⟨OwnerType.Char 0, "A"⟩] [Node.new] 0) = true ∧
    Node.wf (Node.mk [⟨OwnerType.Char 0, "A"⟩] [Node.new] 0) = true :=
  (C1_tree_invariant
      (Node.mk [⟨OwnerType.Char 0, "A"⟩, ⟨OwnerType.Char 0, "B"⟩]
        [Node.new, Node.new] 1)
      (by rfl)).2.2.2.2.2.2.1 0
    (Node.mk [⟨OwnerType.Char 0, "A"⟩] [Node.new] 0) (by rfl)

/-- Unfolding of `Node.get_history` at a constructor, with the child
recursion written through list indexing. -/
theorem Node.get_history_mk (msgs : List Message) (childs : List Node) (sel : Nat) :
    Node.get_history (Node.mk msgs childs sel)
      = if msgs.isEmpty then some []
        else msgs[sel]?.bind fun m =>
          (childs[sel]?.bind Node.get_history).map fun rest => m :: rest := by
  rw [Node.get_history]
  by_cases he : msgs.isEmpty = true
  · rw [he]
    simp
  · rw [Bool.not_eq_true] at he
    rw [he]
    simp only [Bool.false_eq_true, if_false, Node.histAt_eq]
    cases hm : msgs[sel]? with
    | none => simp
    | some m =>
      cases hrest : childs[sel]?.bind Node.get_history with
      | none => simp [hrest]
      | some rest => simp [hrest]

/-- Unfolding of `Node.get_history_structure` at a constructor. -/
theorem Node.get_history_structure_mk (msgs : List Message) (childs : List Node) (sel : Nat) :
    Node.get_history_structure (Node.mk msgs childs sel)
      = if msgs.isEmpty then some []
        else (childs[sel]?.bind Node.get_history_structure).map
          fun rest => (sel + 1, msgs.length) :: rest := by
  rw [Node.get_history_structure]
  by_cases he : msgs.isEmpty = true
  · rw [he]
    simp
  · rw [Bool.not_eq_true] at he
    rw [he]
    simp only [Bool.false_eq_true, if_false, Node.structAt_eq]
    cases hrest : childs[sel]?.bind Node.get_history_structure with
    | none => simp [hrest]
    | some rest => simp [hrest]

/-- C2: `Node::next` at any depth on the selected path acts at the
target node: when `selected + 1` equals the number of alternatives it
pushes an empty-text sibling with the same owner plus a fresh empty
child, moves `selected` to the new index and returns `true`; otherwise
it only increments `selected` and returns `false`. -/
theorem C2_advance (n t : Node) (d : Nat) (m : Message)
    (ht : Node.atDepth n d = some t)
    (hm : t.messages[t.selected]? = some m) :
    (t.selected + 1 = t.messages.length →
      ∃ n', Node.next n d = some (n', true) ∧
        Node.atDepth n' d
          = some (Node.mk (t.messages ++ [Message.create_brother m])
              (t.childs ++ [Node.new]) (t.selected + 1))) ∧
    (t.selected + 1 ≠ t.messages.length →
      ∃ n', Node.next n d = some (n', false) ∧
        Node.atDepth n' d = some (Node.mk t.messages t.childs (t.selected + 1))) := by
  cases t with
  | mk msgs childs sel =>
    simp only [Node.messages, Node.childs, Node.selected] at hm ⊢
    have hlt : sel < msgs.length := (List.getElem?_eq_some.mp hm).1
    constructor
    · intro heq
      have hstep : Node.next (Node.mk msgs childs sel) 0
          = some (Node.mk (msgs ++ [m.create_brother]) (childs ++ [Node.new]) (sel + 1), true) := by
        rw [Node.next_zero, if_pos (by omega), hm]
      exact Node.op_atDepth (fun t => Node.next t 0) Node.next (fun _ => rfl)
        Node.next_succ d n _ ht _ _ hstep
    · intro hne
      have hstep : Node.next (Node.mk msgs childs sel) 0
          = some (Node.mk msgs childs (sel + 1), false) := by
        rw [Node.next_zero, if_neg (by omega)]
      exact Node.op_atDepth (fun t => Node.next t 0) Node.next (fun _ => rfl)
        Node.next_succ d n _ ht _ _ hstep

/-- Witness for C2: root alternatives `["Hi", "Hey"]` with the second
one selected; advancing creates a third, empty-text, same-owner
alternative and returns `true`. -/
theorem C2_advance_witness :
    ∃ n', Node.next (Node.mk [Message.from_char 0 "Hi", Message.from_char 0 "Hey"]
        [Node.new, Node.new] 1) 0 = some (n', true) ∧
      Node.atDepth n' 0
        = some (Node.mk
            ([Message.from_char 0 "Hi", Message.from_char 0 "Hey"]
              ++ [Message.create_brother (Message.from_char 0 "Hey")])
            ([Node.new, Node.new] ++ [Node.new]) 2) :=
  (C2_advance (Node.mk [Message.from_char 0 "Hi", Message.from_char 0 "Hey"]
      [Node.new, Node.new] 1) _ 0 (Message.from_char 0 "Hey") rfl rfl).1 rfl

/-- C4 (amended): `Node::add_edit` at any depth appends a new
alternative preserving the selected message's owner with the new text
as body, selects it, and pushes a new child; it returns `true` exactly
when the replaced message's owner is the User, in which case the child
is seeded with one Character message whose text is a single newline
(the empty string normalized by `from_char`) plus an empty grandchild;
otherwise it returns `false` and the child stays empty. -/
theorem C4_edit (n t : Node) (d : Nat) (m : Message) (text : String)
    (ht : Node.atDepth n d = some t)
    (hm : t.messages[t.selected]? = some m) :
    (Message.empty_from_char 0).text = "\n" ∧
    (Message.empty_from_char 0).owner = OwnerType.Char 0 ∧
    ∃ n', Node.add_edit n d text = some (n', decide (m.owner = OwnerType.User)) ∧
      Node.atDepth n' d
        = some (Node.mk (t.messages ++ [{ owner := m.owner, text := text }])
            (t.childs ++ [if m.owner = OwnerType.User
              then Node.mk [Message.empty_from_char 0] [Node.new] 0
              else Node.new])
            t.messages.length) := by
  cases t with
  | mk msgs childs sel =>
    simp only [Node.messages, Node.childs, Node.selected] at hm ⊢
    refine ⟨rfl, rfl, ?_⟩
    have hstep : Node.add_edit (Node.mk msgs childs sel) 0 text
        = some (Node.mk (msgs ++ [{ owner := m.owner, text := text }])
            (childs ++ [if m.owner = OwnerType.User
              then Node.mk [Message.empty_from_char 0] [Node.new] 0
              else Node.new])
            msgs.length, decide (m.owner = OwnerType.User)) := by
      rw [Node.add_edit, hm]
      dsimp only
      cases hmo : m.owner with
      | User => simp [Message.create_brother, hmo]
      | Char i => simp [Message.create_brother, hmo]
    exact Node.op_atDepth (fun t => Node.add_edit t 0 text)
      (fun n d => Node.add_edit n d text) (fun _ => rfl)
      (fun msgs childs sel d => Node.add_edit_succ msgs childs sel d text)
      d n _ ht _ _ hstep

/-- Witness for C4: editing a selected User message returns `true` and
seeds the new child with a Character message (text `"\n"`) and an empty
grandchild; all hypotheses discharged at a concrete tree. -/
theorem C4_edit_witness :
    (Message.empty_from_char 0).text = "\n" ∧
    (Message.empty_from_char 0).owner = OwnerType.Char 0 ∧
    ∃ n', Node.add_edit (Node.mk [⟨OwnerType.User, "hi\n"⟩] [Node.new] 0) 0 "fix"
        = some (n', true) ∧
      Node.atDepth n' 0
        = some (Node.mk ([⟨OwnerType.User, "hi\n"⟩] ++ [⟨OwnerType.User, "fix"⟩])
            ([Node.new] ++ [Node.mk [Message.empty_from_char 0] [Node.new] 0]) 1) :=
  C4_edit (Node.mk [⟨OwnerType.User, "hi\n"⟩] [Node.new] 0) _ 0
    ⟨OwnerType.User, "hi\n"⟩ "fix" rfl rfl

/-- Counterexample for C4 as stated: after editing a User turn, the
seeded Character message in the new child has text `"\n"`, not the
empty string claimed by the specification sentence. -/
theorem C4_edit_counterexample :
    Node.add_edit (Node.mk [⟨OwnerType.User, "hi\n"⟩] [Node.new] 0) 0 "fix"
      = some (Node.mk [⟨OwnerType.User, "hi\n"⟩, ⟨OwnerType.User, "fix"⟩]
          [Node.new, Node.mk [⟨OwnerType.Char 0, "\n"⟩] [Node.new] 0] 1, true) ∧
    ("\n" : String) ≠ "" :=
  ⟨rfl, by decide⟩

/-- C6: `Node::delete` at any depth on the selected path removes the
alternative and its child subtree at index `selected`, then decrements
`selected` by one unless it was already 0. -/
theorem C6_remove (n t : Node) (d : Nat)
    (ht : Node.atDepth n d = some t)
    (h1 : t.selected < t.messages.length)
    (h2 : t.selected < t.childs.length) :
    ∃ n', Node.delete n d = some n' ∧
      Node.atDepth n' d
        = some (Node.mk (t.messages.eraseIdx t.selected)
            (t.childs.eraseIdx t.selected)
            (if 0 < t.selected then t.selected - 1 else t.selected)) := by
  cases t with
  | mk msgs childs sel =>
    simp only [Node.messages, Node.childs, Node.selected] at h1 h2 ⊢
    have hstep : Node.delete (Node.mk msgs childs sel) 0
        = some (Node.mk (msgs.eraseIdx sel) (childs.eraseIdx sel)
            (if 0 < sel then sel - 1 else sel)) := by
      rw [Node.delete_zero, if_pos h1, if_pos h2]
    exact Node.op1_atDepth (fun t => Node.delete t 0) Node.delete (fun _ => rfl)
      Node.delete_succ d n _ ht _ hstep

/-- Witness for C6: on a node with alternatives `[A, B]` and
`selected = 1`, `delete` yields alternatives `[A]` with `selected = 0`. -/
theorem C6_remove_witness :
    ∃ n', Node.delete (Node.mk [⟨OwnerType.Char 0, "A"⟩, ⟨OwnerType.Char 0, "B"⟩]
        [Node.new, Node.new] 1) 0 = some n' ∧
      Node.atDepth n' 0
        = some (Node.mk ([⟨OwnerType.Char 0, "A"⟩, ⟨OwnerType.Char 0, "B"⟩].eraseIdx 1)
            ([Node.new, Node.new].eraseIdx 1) 0) :=
  C6_remove (Node.mk [⟨OwnerType.Char 0, "A"⟩, ⟨OwnerType.Char 0, "B"⟩]
      [Node.new, Node.new] 1) _ 0 rfl (by decide) (by decide)

/-- Walking to any depth strictly below the history length reaches a
well-formed node with non-empty messages. -/
theorem Node.atDepth_of_hist : ∀ (d : Nat) (n : Node) (h : List Message),
    Node.wf n = true → Node.get_history n = some h → d < h.length →
    ∃ t, Node.atDepth n d = some t ∧ Node.wf t = true ∧ t.messages.isEmpty = false
  | 0, Node.mk msgs childs sel, h, hwf, hh, hd => by
    refine ⟨Node.mk msgs childs sel, rfl, hwf, ?_⟩
    by_cases he : msgs.isEmpty = true
    · rw [Node.get_history_mk, he] at hh
      simp only [if_true, Option.some_inj] at hh
      subst hh
      simp at hd
    · simpa using he
  | d + 1, Node.mk msgs childs sel, h, hwf, hh, hd => by
    rcases (Node.wf_mk msgs childs sel).mp hwf with ⟨hlen, hsel, hall⟩
    by_cases he : msgs.isEmpty = true
    · rw [Node.get_history_mk, he] at hh
      simp only [if_true, Option.some_inj] at hh
      subst hh
      simp at hd
    · rw [Bool.not_eq_true] at he
      rw [Node.get_history_mk, he] at hh
      simp only [Bool.false_eq_true, if_false, Option.bind_eq_some, Option.map_eq_some'] at hh
      obtain ⟨m, hm, rest, hbind, hcons⟩ := hh
      obtain ⟨c, hx, hch⟩ := hbind
      have hmem := List.getElem?_mem hx
      have hdr : d < rest.length := by
        subst hcons
        simp at hd
        omega
      obtain ⟨t, hat, hwt, hne⟩ :=
        Node.atDepth_of_hist d c rest (hall c hmem) hch hdr
      refine ⟨t, ?_, hwt, hne⟩
      rw [Node.atDepth_succ, hx]
      exact hat

/-- C9: when `depth` is strictly below the current history length,
`next`, `previous`, `add_edit` and `delete` all complete without any
out-of-bounds access (in this embedding: they return `some`, while
`none` models a Rust indexing panic). -/
theorem C9_depth_precondition (n : Node) (h : List Message) (d : Nat)
    (hwf : Node.wf n = true) (hh : Node.get_history n = some h) (hd : d < h.length) :
    (Node.next n d).isSome ∧
    (Node.previous n d).isSome ∧
    (∀ text, (Node.add_edit n d text).isSome) ∧
    (Node.delete n d).isSome := by
  obtain ⟨t, hat, hwt, hne⟩ := Node.atDepth_of_hist d n h hwf hh hd
  cases t with
  | mk msgs childs sel =>
    rcases (Node.wf_mk msgs childs sel).mp hwt with ⟨hlen, hsel, hall⟩
    simp only [Node.messages] at hne
    rw [hne] at hsel
    simp only [Bool.false_eq_true, if_false] at hsel
    have hm : msgs[sel]? = some msgs[sel] := List.getElem?_eq_getElem hsel
    refine ⟨?_, ?_, ?_, ?_⟩
    · by_cases hc : msgs.length ≤ sel + 1
      · have hstep : Node.next (Node.mk msgs childs sel) 0
            = some (Node.mk (msgs ++ [(msgs[sel]).create_brother])
                (childs ++ [Node.new]) (sel + 1), true) := by
          rw [Node.next_zero, if_pos hc, hm]
        obtain ⟨n', hop, _⟩ := Node.op_atDepth (fun t => Node.next t 0) Node.next
          (fun _ => rfl) Node.next_succ d n _ hat _ _ hstep
        simp [hop]
      · have hstep : Node.next (Node.mk msgs childs sel) 0
            = some (Node.mk msgs childs (sel + 1), false) := by
          rw [Node.next_zero, if_neg hc]
        obtain ⟨n', hop, _⟩ := Node.op_atDepth (fun t => Node.next t 0) Node.next
          (fun _ => rfl) Node.next_succ d n _ hat _ _ hstep
        simp [hop]
    · obtain ⟨n', hop, _⟩ := Node.op1_atDepth (fun t => Node.previous t 0) Node.previous
        (fun _ => rfl) Node.previous_succ d n _ hat _
        (Node.previous_zero msgs childs sel)
      simp [hop]
    · intro text
      have hstep : (Node.add_edit (Node.mk msgs childs sel) 0 text).isSome := by
        rw [Node.add_edit, hm]
        dsimp only
        rfl
      obtain ⟨⟨t', a⟩, hstep'⟩ := Option.isSome_iff_exists.mp hstep
      obtain ⟨n', hop, _⟩ := Node.op_atDepth (fun t => Node.add_edit t 0 text)
        (fun n d => Node.add_edit n d text) (fun _ => rfl)
        (fun msgs childs sel d => Node.add_edit_succ msgs childs sel d text)
        d n _ hat _ _ hstep'
      simp [hop]
    · have hstep : Node.delete (Node.mk msgs childs sel) 0
          = some (Node.mk (msgs.eraseIdx sel) (childs.eraseIdx sel)
              (if 0 < sel then sel - 1 else sel)) := by
        rw [Node.delete_zero, if_pos hsel, if_pos (hlen ▸ hsel)]
      obtain ⟨n', hop, _⟩ := Node.op1_atDepth (fun t => Node.delete t 0) Node.delete
        (fun _ => rfl) Node.delete_succ d n _ hat _ hstep
      simp [hop]

/-- Witness for C9 at a concrete two-deep tree and `depth = 1`. -/
theorem C9_depth_precondition_witness :
    (Node.next (Node.mk [⟨OwnerType.User, "u\n"⟩]
        [Node.mk [⟨OwnerType.Char 0, "c\n"⟩] [Node.new] 0] 0) 1).isSome ∧
    (Node.previous (Node.mk [⟨OwnerType.User, "u\n"⟩]
        [Node.mk [⟨OwnerType.Char 0, "c\n"⟩] [Node.new] 0] 0) 1).isSome ∧
    (∀ text, (Node.add_edit (Node.mk [⟨OwnerType.User, "u\n"⟩]
        [Node.mk [⟨OwnerType.Char 0, "c\n"⟩] [Node.new] 0] 0) 1 text).isSome) ∧
    (Node.delete (Node.mk [⟨OwnerType.User, "u\n"⟩]
        [Node.mk [⟨OwnerType.Char 0, "c\n"⟩] [Node.new] 0] 0) 1).isSome :=
  C9_depth_precondition
    (Node.mk [⟨OwnerType.User, "u\n"⟩]
      [Node.mk [⟨OwnerType.Char 0, "c\n"⟩] [Node.new] 0] 0)
    [⟨OwnerType.User, "u\n"⟩, ⟨OwnerType.Char 0, "c\n"⟩] 1
    (by rfl) (by rfl) (by decide)

/-- `Node.push` on a well-formed tree appends the message at the end of
the selected path: the history grows by exactly that message. -/
theorem Node.push_hist (n : Node) :
    ∀ (msg : Message) (h : List Message),
      Node.wf n = true → Node.get_history n = some h →
      ∃ n', Node.push msg n = some n' ∧ Node.wf n' = true ∧
        Node.get_history n' = some (h ++ [msg]) := by
  induction n using Node.strongInduction with
  | step msgs childs sel ih =>
    intro msg h hwf hh
    rcases (Node.wf_mk msgs childs sel).mp hwf with ⟨hlen, hsel, hall⟩
    by_cases hemp : childs.isEmpty = true
    · have hc0 : childs = [] := List.isEmpty_iff.mp hemp
      subst hc0
      have hm0 : msgs = [] := by
        cases msgs with
        | nil => rfl
        | cons a as => simp at hlen
      subst hm0
      have hs0 : sel = 0 := by simpa using hsel
      subst hs0
      have hh0 : h = [] := by
        rw [Node.get_history_mk] at hh
        simp only [List.isEmpty_nil, if_true, Option.some_inj] at hh
        exact hh.symm
      subst hh0
      exact ⟨Node.mk [msg] [Node.new] 0, rfl, by rfl, by rfl⟩
    · have hemp' : childs.isEmpty = false := by simpa using hemp
      have hmne : msgs.isEmpty = false := by
        cases msgs with
        | nil =>
          cases childs with
          | nil => simp at hemp'
          | cons a as => simp at hlen
        | cons a as => rfl
      rw [Node.get_history_mk, hmne] at hh
      simp only [Bool.false_eq_true, if_false, Option.bind_eq_some, Option.map_eq_some'] at hh
      obtain ⟨m, hm, rest, hbind, hcons⟩ := hh
      obtain ⟨c, hx, hch⟩ := hbind
      have hmem := List.getElem?_mem hx
      obtain ⟨c', hpc, hwc', hhc'⟩ := ih c hmem msg rest (hall c hmem) hch
      refine ⟨Node.mk msgs (childs.set sel c') sel, ?_, ?_, ?_⟩
      · rw [Node.push_nonempty msg msgs childs sel hemp', hx]
        simp [hpc]
      · exact Node.wf_set msgs childs sel sel c' hwf hwc'
      · rw [Node.get_history_mk, hmne]
        simp only [Bool.false_eq_true, if_false]
        rw [hm, List.getElem?_set_of_get childs sel c c' hx]
        simp only [Option.some_bind, hhc', Option.map_some']
        rw [← hcons]
        rfl

/-- C3 (amended): `Chat::add_user_message` appends, for non-whitespace
input, a User message whose text is the trimmed input normalized to end
with a newline, followed by the Character placeholder
`Message::empty_from_char 0`, whose text is a single newline (not the
empty string); for whitespace-only input no User message is appended
but the placeholder still is; `generate()` is triggered in both cases
(the returned boolean). -/
theorem C3_append_user_turn (c : Chat) (text : String) (h : List Message)
    (hwf : Node.wf c.root = true) (hh : Chat.get_history c = some h) :
    (Message.from_user (rust_trim text)).owner = OwnerType.User ∧
    (Message.from_user (rust_trim text)).text
      = (if ends_with_nl (rust_trim text) then rust_trim text
          else rust_trim text ++ "\n") ∧
    (Message.empty_from_char 0).owner = OwnerType.Char 0 ∧
    (Message.empty_from_char 0).text = "\n" ∧
    ((rust_trim text).data.isEmpty = false →
      ∃ c', Chat.add_user_message c text = some (c', true) ∧
        Chat.get_history c'
          = some (h ++ [Message.from_user (rust_trim text),
              Message.empty_from_char 0])) ∧
    ((rust_trim text).data.isEmpty = true →
      ∃ c', Chat.add_user_message c text = some (c', true) ∧
        Chat.get_history c' = some (h ++ [Message.empty_from_char 0])) := by
  refine ⟨rfl, rfl, rfl, rfl, ?_, ?_⟩
  · intro hne
    obtain ⟨r1, hp1, hw1, hh1⟩ :=
      Node.push_hist c.root (Message.from_user (rust_trim text)) h hwf hh
    obtain ⟨r2, hp2, hw2, hh2⟩ :=
      Node.push_hist r1 (Message.empty_from_char 0) _ hw1 hh1
    refine ⟨{ root := r2 }, ?_, ?_⟩
    · rw [Chat.add_user_message]
      simp only [hne, Bool.false_eq_true, if_false, hp1, hp2]
    · show Node.get_history r2 = _
      rw [hh2]
      simp
  · intro he
    obtain ⟨r2, hp2, hw2, hh2⟩ :=
      Node.push_hist c.root (Message.empty_from_char 0) h hwf hh
    refine ⟨{ root := r2 }, ?_, ?_⟩
    · rw [Chat.add_user_message]
      simp only [he, if_true, hp2]
    · show Node.get_history r2 = _
      exact hh2

/-- Witness for C3 at the chat constructed with greeting `"Hi"` and the
input `"hello"`. -/
theorem C3_append_user_turn_witness :
    (Message.from_user (rust_trim "hello")).owner = OwnerType.User ∧
    (Message.from_user (rust_trim "hello")).text
      = (if ends_with_nl (rust_trim "hello") then rust_trim "hello"
          else rust_trim "hello" ++ "\n") ∧
    (Message.empty_from_char 0).owner = OwnerType.Char 0 ∧
    (Message.empty_from_char 0).text = "\n" ∧
    ((rust_trim "hello").data.isEmpty = false →
      ∃ c', Chat.add_user_message (Chat.with_personas ["Hi"]) "hello" = some (c', true) ∧
        Chat.get_history c'
          = some ([⟨OwnerType.Char 0, "Hi\n"⟩] ++ [Message.from_user (rust_trim "hello"),
              Message.empty_from_char 0])) ∧
    ((rust_trim "hello").data.isEmpty = true →
      ∃ c', Chat.add_user_message (Chat.with_personas ["Hi"]) "hello" = some (c', true) ∧
        Chat.get_history c' = some ([⟨OwnerType.Char 0, "Hi\n"⟩] ++ [Message.empty_from_char 0])) :=
  C3_append_user_turn (Chat.with_personas ["Hi"]) "hello"
    [⟨OwnerType.Char 0, "Hi\n"⟩] (by rfl) (by rfl)

/-- Counterexample for C3 as stated: after `add_user_message "hello"`
the final User message text is `"hello\n"`, not the trimmed input
`"hello"`, and the trailing placeholder text is `"\n"`, not `""`. -/
theorem C3_append_user_turn_counterexample :
    ((Chat.with_personas ["Hi"]).add_user_message "hello").map
        (fun r => (Chat.get_history r.1).map (List.map Message.text))
      = some (some ["Hi\n", "hello\n", "\n"]) ∧
    ("hello\n" : String) ≠ "hello" ∧ ("\n" : String) ≠ "" :=
  ⟨rfl, by decide, by decide⟩

/-- `Node.append_to_last_message` on a well-formed tree with non-empty
history appends the fragment to the text of the last history message
and changes nothing else in the history. -/
theorem Node.append_hist (n : Node) :
    ∀ (text : String) (h : List Message) (last : Message),
      Node.wf n = true → Node.get_history n = some h → h.getLast? = some last →
      ∃ n', Node.append_to_last_message text n = some n' ∧ Node.wf n' = true ∧
        Node.get_history n'
          = some (h.dropLast ++ [{ last with text := last.text ++ text }]) := by
  induction n using Node.strongInduction with
  | step msgs childs sel ih =>
    intro text h last hwf hh hl
    rcases (Node.wf_mk msgs childs sel).mp hwf with ⟨hlen, hsel, hall⟩
    by_cases hemp : msgs.isEmpty = true
    · rw [Node.get_history_mk, hemp] at hh
      simp only [if_true, Option.some_inj] at hh
      rw [← hh] at hl
      simp at hl
    · have hmne : msgs.isEmpty = false := by simpa using hemp
      rw [Node.get_history_mk, hmne] at hh
      simp only [Bool.false_eq_true, if_false, Option.bind_eq_some, Option.map_eq_some'] at hh
      obtain ⟨m, hm, rest, ⟨c, hx, hch⟩, hcons⟩ := hh
      have hmem := List.getElem?_mem hx
      have hcwf := hall c hmem
      cases c with
      | mk cm cc ccs =>
        rcases (Node.wf_mk cm cc ccs).mp hcwf with ⟨hclen, hcsel, hcall⟩
        by_cases hce : cc.isEmpty = true
        · have hcc0 : cc = [] := List.isEmpty_iff.mp hce
          subst hcc0
          have hcm0 : cm = [] := by
            cases cm with
            | nil => rfl
            | cons a as => simp at hclen
          subst hcm0
          have hrest0 : rest = [] := by
            rw [Node.get_history_mk] at hch
            simp only [List.isEmpty_nil, if_true, Option.some_inj] at hch
            exact hch.symm
          subst hrest0
          have hh' : h = [m] := hcons.symm
          have hlast : last = m := by
            rw [hh'] at hl
            simpa using hl.symm
          subst hlast
          subst hh'
          have hstep : Node.append_to_last_message text (Node.mk msgs childs sel)
              = some (Node.mk (msgs.set sel { last with text := last.text ++ text })
                  childs sel) := by
            rw [Node.append_to_last_message, hmne]
            simp only [Bool.false_eq_true, if_false]
            rw [hx]
            dsimp only [Node.childs]
            simp only [List.isEmpty_nil, if_true]
            rw [hm]
          refine ⟨_, hstep, ?_, ?_⟩
          · exact Node.append_wf (Node.mk msgs childs sel) text _ hwf hstep
          · rw [Node.get_history_mk]
            have hsne : (msgs.set sel { last with text := last.text ++ text }).isEmpty
                = false := by
              cases msgs with
              | nil => simp at hmne
              | cons a as => cases sel <;> rfl
            rw [hsne]
            simp only [Bool.false_eq_true, if_false]
            rw [List.getElem?_set_of_get msgs sel last _ hm, hx]
            simp [Node.get_history_mk]
        · have hce' : cc.isEmpty = false := by simpa using hce
          have hcmne : cm.isEmpty = false := by
            cases cm with
            | nil =>
              cases cc with
              | nil => simp at hce'
              | cons a as => simp at hclen
            | cons a as => rfl
          have hrne : rest ≠ [] := by
            rw [Node.get_history_mk, hcmne] at hch
            simp only [Bool.false_eq_true, if_false, Option.bind_eq_some,
              Option.map_eq_some'] at hch
            obtain ⟨m2, _, rest2, _, hcons2⟩ := hch
            rw [← hcons2]
            simp
          have hlrest : rest.getLast? = some last := by
            rw [← hcons] at hl
            cases rest with
            | nil => exact absurd rfl hrne
            | cons r rs => rw [List.getLast?_cons_cons] at hl; exact hl
          obtain ⟨c', happ, hwc', hhc'⟩ :=
            ih (Node.mk cm cc ccs) hmem text rest last hcwf hch hlrest
          have hstep : Node.append_to_last_message text (Node.mk msgs childs sel)
              = some (Node.mk msgs (childs.set sel c') sel) := by
            rw [Node.append_to_last_message, hmne]
            simp only [Bool.false_eq_true, if_false]
            rw [hx]
            dsimp only [Node.childs]
            simp only [hce', Bool.false_eq_true, if_false]
            rw [Node.appendAt_eq, hx]
            simp [happ]
          refine ⟨_, hstep, Node.wf_set msgs childs sel sel c' hwf hwc', ?_⟩
          rw [Node.get_history_mk, hmne]
          simp only [Bool.false_eq_true, if_false]
          rw [hm, List.getElem?_set_of_get childs sel _ c' hx]
          simp only [Option.some_bind, hhc', Option.map_some']
          rw [← hcons, List.dropLast_cons_of_ne_nil hrne]
          rfl

/-- The fragment-consumption loop applies all fragments, in order, to
the last history message, emits one `StreamUpdate` per fragment and a
final `StreamFinished`. -/
theorem Node.consume_ok_hist : ∀ (fs : List String) (n : Node) (h : List Message)
    (last : Message),
    Node.wf n = true → Node.get_history n = some h → h.getLast? = some last →
    ∃ n', Node.consume_ok n fs
        = some (n', (fs.map fun _ => ChatUpdate.StreamUpdate) ++ [ChatUpdate.StreamFinished]) ∧
      Node.wf n' = true ∧
      Node.get_history n'
        = some (h.dropLast ++ [{ last with text := last.text ++ concatAll fs }])
  | [], n, h, last, hwf, hh, hl => by
    refine ⟨n, rfl, hwf, ?_⟩
    rw [hh]
    congr 1
    have he : ({ last with text := last.text ++ concatAll [] } : Message) = last := by
      show ({ last with text := last.text ++ "" } : Message) = last
      rw [String.append_empty]
    rw [he]
    exact (List.dropLast_append_getLast? last hl).symm
  | f :: fs, n, h, last, hwf, hh, hl => by
    obtain ⟨n1, happ, hw1, hh1⟩ := Node.append_hist n f h last hwf hh hl
    have hl1 : (h.dropLast ++ [{ last with text := last.text ++ f }]).getLast?
        = some { last with text := last.text ++ f } := List.getLast?_concat _
    obtain ⟨n2, hloop, hw2, hh2⟩ :=
      Node.consume_ok_hist fs n1 _ _ hw1 hh1 hl1
    refine ⟨n2, ?_, hw2, ?_⟩
    · rw [Node.consume_ok, happ]
      dsimp only
      rw [hloop]
      rfl
    · rw [hh2, List.dropLast_concat]
      simp only [concatAll, String.append_assoc]

/-- C5 (amended): within one successful generation run the fragments
are applied to the streaming tail in arrival order, so the tail
message's final text is its text before the run with the concatenation
of all fragments appended, and the last event emitted is
`StreamFinished`.  In the concrete greeting scenario the placeholder
starts as `"\n"`, so the tail text ends up `"\n1, 2, 3"` (not
`"1, 2, 3"`). -/
theorem C5_stream (n : Node) (h : List Message) (last : Message) (fs : List String)
    (hwf : Node.wf n = true) (hh : Node.get_history n = some h)
    (hl : h.getLast? = some last) :
    (∃ n', Node.generate_run n (StreamResult.ok fs)
        = some (n', ChatUpdate.MessageCreated ::
            ((fs.map fun _ => ChatUpdate.StreamUpdate) ++ [ChatUpdate.StreamFinished])) ∧
      Node.get_history n'
        = some (h.dropLast ++ [{ last with text := last.text ++ concatAll fs }]) ∧
      (ChatUpdate.MessageCreated ::
          ((fs.map fun _ => ChatUpdate.StreamUpdate) ++ [ChatUpdate.StreamFinished])).getLast?
        = some ChatUpdate.StreamFinished) ∧
    ((Chat.with_personas ["Hi"]).add_user_message "Count to 3").map (fun p =>
        (Node.generate_run p.1.root (StreamResult.ok ["1, ", "2, ", "3"])).map fun q =>
          ((Node.get_history q.1).map (List.map Message.text), q.2.getLast?))
      = some (some (some ["Hi\n", "Count to 3\n", "\n1, 2, 3"],
          some ChatUpdate.StreamFinished)) := by
  constructor
  · obtain ⟨n', hloop, hw', hh'⟩ := Node.consume_ok_hist fs n h last hwf hh hl
    refine ⟨n', ?_, hh', ?_⟩
    · rw [Node.generate_run, hloop]
    · show ((ChatUpdate.MessageCreated :: (fs.map fun _ => ChatUpdate.StreamUpdate))
          ++ [ChatUpdate.StreamFinished]).getLast? = some ChatUpdate.StreamFinished
      exact List.getLast?_concat _
  · rfl

/-- Witness for C5 at a concrete one-message tree whose tail text is
the placeholder `"\n"` and the fragments `"1, "`, `"2, "`, `"3"`. -/
theorem C5_stream_witness :
    (∃ n', Node.generate_run (Node.mk [⟨OwnerType.Char 0, "\n"⟩] [Node.new] 0)
        (StreamResult.ok ["1, ", "2, ", "3"])
        = some (n', ChatUpdate.MessageCreated ::
            ((["1, ", "2, ", "3"].map fun _ => ChatUpdate.StreamUpdate)
              ++ [ChatUpdate.StreamFinished])) ∧
      Node.get_history n'
        = some (([⟨OwnerType.Char 0, "\n"⟩] : List Message).dropLast
            ++ [{ (⟨OwnerType.Char 0, "\n"⟩ : Message) with
                text := (⟨OwnerType.Char 0, "\n"⟩ : Message).text
                  ++ concatAll ["1, ", "2, ", "3"] }]) ∧
      (ChatUpdate.MessageCreated ::
          ((["1, ", "2, ", "3"].map fun _ => ChatUpdate.StreamUpdate)
            ++ [ChatUpdate.StreamFinished])).getLast?
        = some ChatUpdate.StreamFinished) ∧
    ((Chat.with_personas ["Hi"]).add_user_message "Count to 3").map (fun p =>
        (Node.generate_run p.1.root (StreamResult.ok ["1, ", "2, ", "3"])).map fun q =>
          ((Node.get_history q.1).map (List.map Message.text), q.2.getLast?))
      = some (some (some ["Hi\n", "Count to 3\n", "\n1, 2, 3"],
          some ChatUpdate.StreamFinished)) :=
  C5_stream (Node.mk [⟨OwnerType.Char 0, "\n"⟩] [Node.new] 0)
    [⟨OwnerType.Char 0, "\n"⟩] ⟨OwnerType.Char 0, "\n"⟩ ["1, ", "2, ", "3"]
    (by rfl) (by rfl) (by rfl)

/-- Counterexample for C5 as stated: in the greeting scenario the tail
text after streaming `"1, "`, `"2, "`, `"3"` is `"\n1, 2, 3"`, not
`"1, 2, 3"` as claimed, because the placeholder's initial text is a
newline. -/
theorem C5_stream_counterexample :
    (((Chat.with_personas ["Hi"]).add_user_message "Count to 3").bind fun p =>
        (Node.generate_run p.1.root (StreamResult.ok ["1, ", "2, ", "3"])).map fun q =>
          (Node.get_history q.1).map (List.map Message.text))
      = some (some ["Hi\n", "Count to 3\n", "\n1, 2, 3"]) ∧
    ("\n1, 2, 3" : String) ≠ "1, 2, 3" :=
  ⟨rfl, by decide⟩

/-- C7: the provider request is the history snapshot translated
message-by-message to role-tagged request messages (User to the user
role, Character to the assistant role) with the trailing entry (the
placeholder being filled) dropped. -/
theorem C7_build_request (c : Chat) (h : List Message)
    (hh : Chat.get_history c = some h) :
    Chat.build_request c = some (h.dropLast.map Message.to_chat_message) ∧
    (∀ m : Message, m.owner = OwnerType.User →
      m.to_chat_message = { role := ChatRole.user, content := m.text }) ∧
    (∀ (m : Message) (i : Nat), m.owner = OwnerType.Char i →
      m.to_chat_message = { role := ChatRole.assistant, content := m.text }) := by
  refine ⟨?_, ?_, ?_⟩
  · rw [Chat.build_request, show c.root.get_history = some h from hh,
      List.map_dropLast]
  · intro m hm
    cases m with
    | mk o t =>
      dsimp only at hm
      subst hm
      rfl
  · intro m i hm
    cases m with
    | mk o t =>
      dsimp only at hm
      subst hm
      rfl

/-- Witness for C7 at the chat constructed with one greeting. -/
theorem C7_build_request_witness :
    Chat.build_request (Chat.with_personas ["Hi"])
      = some (([⟨OwnerType.Char 0, "Hi\n"⟩] : List Message).dropLast.map
          Message.to_chat_message) ∧
    (∀ m : Message, m.owner = OwnerType.User →
      m.to_chat_message = { role := ChatRole.user, content := m.text }) ∧
    (∀ (m : Message) (i : Nat), m.owner = OwnerType.Char i →
      m.to_chat_message = { role := ChatRole.assistant, content := m.text }) :=
  C7_build_request (Chat.with_personas ["Hi"]) [⟨OwnerType.Char 0, "Hi\n"⟩] (by rfl)

/-- C8 (amended): a request-level provider failure produces exactly one
terminal `Error` event carrying the failure description, no other
events, and leaves the tree (hence the pending placeholder's text,
which is a single newline, not the empty string) unchanged. -/
theorem C8_request_error (n : Node) (e : String) :
    Node.generate_run n (StreamResult.err e) = some (n, [ChatUpdate.Error e]) :=
  rfl

/-- Counterexample for C8 as stated: after a failed run the tree is
unchanged and a single `Error` event was emitted, but the pending
placeholder's text is `"\n"`, not the empty string the claim asserts. -/
theorem C8_request_error_counterexample :
    (((Chat.with_personas ["Hi"]).add_user_message "x").bind fun p =>
        (Node.generate_run p.1.root (StreamResult.err "boom")).map fun q =>
          ((Node.get_history q.1).map (List.map Message.text), q.2))
      = some (some ["Hi\n", "x\n", "\n"], [ChatUpdate.Error "boom"]) ∧
    ("\n" : String) ≠ "" :=
  ⟨rfl, by decide⟩

/-- On a well-formed tree, the history and the breadcrumb structure are
aligned: same length, and at every index the structure entry is
`(selected + 1, alternative count)` of the node at that depth, whose
selected message is the history entry. -/
theorem Node.hist_struct (n : Node) :
    ∀ (h : List Message) (s : List (Nat × Nat)),
      Node.wf n = true → Node.get_history n = some h →
      Node.get_history_structure n = some s →
      s.length = h.length ∧
      ∀ i, i < h.length →
        ∃ t, Node.atDepth n i = some t ∧
          s[i]? = some (t.selected + 1, t.messages.length) ∧
          h[i]? = t.messages[t.selected]? := by
  induction n using Node.strongInduction with
  | step msgs childs sel ih =>
    intro h s hwf hh hs
    by_cases hemp : msgs.isEmpty = true
    · rw [Node.get_history_mk, hemp] at hh
      rw [Node.get_history_structure_mk, hemp] at hs
      simp only [if_true, Option.some_inj] at hh hs
      rw [← hh, ← hs]
      exact ⟨rfl, fun i hi => absurd hi (by simp)⟩
    · have hmne : msgs.isEmpty = false := by simpa using hemp
      rcases (Node.wf_mk msgs childs sel).mp hwf with ⟨hlen, hsel, hall⟩
      rw [Node.get_history_mk, hmne] at hh
      rw [Node.get_history_structure_mk, hmne] at hs
      simp only [Bool.false_eq_true, if_false, Option.bind_eq_some,
        Option.map_eq_some'] at hh hs
      obtain ⟨m, hm, rest, ⟨c, hx, hch⟩, hcons⟩ := hh
      obtain ⟨srest, ⟨c2, hx2, hsch⟩, hscons⟩ := hs
      have hc2 : c2 = c := by
        rw [hx] at hx2
        exact (Option.some_inj.mp hx2).symm
      subst hc2
      have hmem := List.getElem?_mem hx
      obtain ⟨hlen2, hidx⟩ := ih c2 hmem rest srest (hall c2 hmem) hch hsch
      constructor
      · rw [← hcons, ← hscons]
        simp [hlen2]
      · intro i hi
        cases i with
        | zero =>
          refine ⟨Node.mk msgs childs sel, rfl, ?_, ?_⟩
          · rw [← hscons]
            simp only [List.getElem?_cons_zero, Node.messages, Node.selected]
          · rw [← hcons]
            simp only [List.getElem?_cons_zero, Node.messages, Node.selected]
            exact hm.symm
        | succ i =>
          have hi' : i < rest.length := by
            rw [← hcons] at hi
            simpa using hi
          obtain ⟨t, hat, hsi, hhi⟩ := hidx i hi'
          refine ⟨t, ?_, ?_, ?_⟩
          · rw [Node.atDepth_succ, hx]
            exact hat
          · rw [← hscons]
            simpa using hsi
          · rw [← hcons]
            simpa using hhi

/-- C10: `history()` and `historyStructure()` have the same length, and
the structure entry at each index `i` is `(selected_i + 1, count_i)` of
the node at depth `i` on the selected path, whose selected message is
the `i`-th history entry. -/
theorem C10_history_structure (c : Chat) (h : List Message) (s : List (Nat × Nat))
    (hwf : Node.wf c.root = true) (hh : Chat.get_history c = some h)
    (hs : Chat.get_history_structure c = some s) :
    s.length = h.length ∧
    ∀ i, i < h.length →
      ∃ t, Node.atDepth c.root i = some t ∧
        s[i]? = some (t.selected + 1, t.messages.length) ∧
        h[i]? = t.messages[t.selected]? :=
  Node.hist_struct c.root h s hwf hh hs

/-- Witness for C10 at a concrete two-deep tree with two alternatives
at the second depth. -/
theorem C10_history_structure_witness :
    ([(1, 1), (2, 2)] : List (Nat × Nat)).length
        = ([⟨OwnerType.User, "u\n"⟩, ⟨OwnerType.Char 0, "c2\n"⟩] : List Message).length ∧
    ∀ i, i < ([⟨OwnerType.User, "u\n"⟩, ⟨OwnerType.Char 0, "c2\n"⟩] : List Message).length →
      ∃ t, Node.atDepth (Node.mk [⟨OwnerType.User, "u\n"⟩]
          [Node.mk [⟨OwnerType.Char 0, "c1\n"⟩, ⟨OwnerType.Char 0, "c2\n"⟩]
            [Node.new, Node.new] 1] 0) i = some t ∧
        ([(1, 1), (2, 2)] : List (Nat × Nat))[i]? = some (t.selected + 1, t.messages.length) ∧
        ([⟨OwnerType.User, "u\n"⟩, ⟨OwnerType.Char 0, "c2\n"⟩] : List Message)[i]?
          = t.messages[t.selected]? :=
  C10_history_structure
    ⟨Node.mk [⟨OwnerType.User, "u\n"⟩]
      [Node.mk [⟨OwnerType.Char 0, "c1\n"⟩, ⟨OwnerType.Char 0, "c2\n"⟩]
        [Node.new, Node.new] 1] 0⟩
    [⟨OwnerType.User, "u\n"⟩, ⟨OwnerType.Char 0, "c2\n"⟩] [(1, 1), (2, 2)]
    (by rfl) (by rfl) (by rfl)
